import Mathlib

/-!
Verification development for the wp-static-scraper repository.

Strings are modelled as `List Char` (Go strings are byte slices; all inputs of
interest here are ASCII, so a list of characters is a faithful carrier).
Network fetches are modelled by an oracle `Fetch : String → Option (Nat × String)`
mapping a URL to `none` (transport or body-read error) or `some (statusCode, body)`.
Filesystem writes are returned as an explicit log of `(path, bytes)` pairs.
Go regular-expression calls are modelled by hand-written scanners that implement
the concrete regexp's leftmost-first matching semantics for the pattern in
question; each scanner's doc comment names the regexp it embeds.
-/

/-- Characters matched by Go's regexp class `\s` (= `[\t\n\f\r ]`). -/
def goSpace (c : Char) : Bool :=
  c = ' ' || c = '\t' || c = '\n' || c = '\x0c' || c = '\r'

/-- Go `strings.Contains`: `sub` occurs as a contiguous substring of `s`. -/
def containsSub (s sub : List Char) : Bool :=
  s.tails.any (fun v => sub.isPrefixOf v)

/-- Go `strings.HasPrefix`. -/
def hasPre (s pre : List Char) : Bool :=
  pre.isPrefixOf s

/-- Go `strings.HasSuffix`. -/
def hasSuf (s suf : List Char) : Bool :=
  suf.isSuffixOf s

/-- Fuel-driven core of Go `strings.ReplaceAll s old new`: leftmost,
non-overlapping replacement of every occurrence of `old` by `new`.
(The Go corner case `old = ""` is never exercised by the repository:
every pattern replaced is a non-empty origin string or URL.) -/
def replaceAllF (new old : List Char) : Nat → List Char → List Char
  | 0, s => s
  | _ + 1, [] => []
  | f + 1, c :: cs =>
    if old.isPrefixOf (c :: cs) then
      new ++ replaceAllF new old f (List.drop old.length (c :: cs))
    else
      c :: replaceAllF new old f cs

/-- Go `strings.ReplaceAll s old new`. -/
def replaceAll (s old new : List Char) : List Char :=
  replaceAllF new old s.length s

/-- Go `strings.TrimPrefix s "output/"`, the storage-root strip applied by the
rewriter and by the JS/CSS transformers before substituting local paths. -/
def stripStorageRoot (s : List Char) : List Char :=
  if ("output/".toList).isPrefixOf s then s.drop 7 else s

/-- Concurrency validation in `commands/scrape.go` (`ScrapeCommand`):
the code rejects a worker count `c` iff `c < 1 || c > 50`. -/
def concurrencyAccepted (c : Int) : Bool :=
  !(c < 1 || c > 50)

/-- The literal `sourceMappingURL=` marker required by both alternatives of the
regexp in `utils.RemoveSourceMapReferences`. -/
def smMarker : List Char := "sourceMappingURL=".toList

/-- Shared tail of both regexp alternatives: skip `\s*` greedily, then require
the literal `sourceMappingURL=`; returns the remainder after the marker.
(Backtracking is unnecessary: no `\s` character can start the literal.) -/
def afterMarker (l : List Char) : Option (List Char) :=
  let l1 := l.dropWhile goSpace
  if smMarker.isPrefixOf l1 then some (l1.drop smMarker.length) else none

/-- Lazy scan of `.*?\*/` in the block alternative: consume the minimal number
of non-newline characters until the literal `*/`, returning the remainder
after `*/`; `none` if a newline or the end of input intervenes. -/
def scanToBlockEnd : List Char → Option (List Char)
  | [] => none
  | c :: cs =>
    if c = '*' && cs.head? = some '/' then some cs.tail
    else if c = '\n' then none
    else scanToBlockEnd cs

/-- Match of the first regexp alternative `/\*#\s*sourceMappingURL=.*?\*/`
at the head of `l`; returns the remainder after the match. -/
def tryBlock (l : List Char) : Option (List Char) :=
  if ("/*#".toList).isPrefixOf l then
    match afterMarker (l.drop 3) with
    | some r => scanToBlockEnd r
    | none => none
  else none

/-- Match of the second regexp alternative `//#\s*sourceMappingURL=.*`
at the head of `l`; `.*` greedily consumes to the end of the line. -/
def tryLine (l : List Char) : Option (List Char) :=
  if ("//#".toList).isPrefixOf l then
    match afterMarker (l.drop 3) with
    | some r => some (r.dropWhile (fun c => c ≠ '\n'))
    | none => none
  else none

/-- Fuel-driven scanner of `utils.RemoveSourceMapReferences`: the Go code runs
`regexp.MustCompile((/\*#\s*sourceMappingURL=.*?\*/|//#\s*sourceMappingURL=.*)).ReplaceAllString(content, "")`,
i.e. each leftmost non-overlapping match of either alternative is deleted. -/
def stripSMF : Nat → List Char → List Char
  | 0, l => l
  | _ + 1, [] => []
  | f + 1, c :: cs =>
    match tryBlock (c :: cs) with
    | some rest => stripSMF f rest
    | none =>
      match tryLine (c :: cs) with
      | some rest => stripSMF f rest
      | none => c :: stripSMF f cs

/-- Returns `utils.RemoveSourceMapReferences` (utils package, the copy the
tests exercise), on the `List Char` carrier. -/
def RemoveSourceMapReferences (content : List Char) : List Char :=
  stripSMF content.length content

/-- ASCII lower-casing as applied by Go's `url.Parse` to the scheme. -/
def asciiLower (c : Char) : Char :=
  if 'A' ≤ c && c ≤ 'Z' then Char.ofNat (c.toNat + 32) else c

/-- ASCII control characters, rejected outright by Go's `url.Parse`
("net/url: invalid control character in URL"). -/
def ctlChar (c : Char) : Bool :=
  c.toNat < 0x20 || c.toNat = 0x7f

/-- Hexadecimal digit, as accepted inside a `%XY` escape by Go's `net/url`. -/
def hexDigit (c : Char) : Bool :=
  c.isDigit || ('a' ≤ c && c ≤ 'f') || ('A' ≤ c && c ≤ 'F')

/-- Validity of percent-escapes: every `%` must be followed by two hex digits
(Go's `net/url` reports `invalid URL escape` otherwise). -/
def percentOk : List Char → Bool
  | [] => true
  | '%' :: rest =>
    match rest with
    | a :: b :: r => hexDigit a && hexDigit b && percentOk r
    | _ => false
  | _ :: rest => percentOk rest

/-- Modelled from the Go standard library `net/url` (called by
`utils.ResolveURL` and the downloaders, which are in `src/`): a parsed URL
restricted to the components this repository exercises — scheme, host,
path and raw query. (User info, opaque URLs and fragments are not modelled;
no reference handled by the scraper carries them.) -/
structure GoURL where
  scheme : List Char
  host : List Char
  path : List Char
  query : List Char
deriving Repr, DecidableEq

/-- Modelled from Go `net/url.getScheme`: splits `scheme:rest`; returns
`.error ()` exactly for a leading `:` ("missing protocol scheme"); returns
an empty scheme and the whole input when no scheme prefix is present. -/
def getSchemeAux (orig : List Char) : List Char → List Char → Except Unit (List Char × List Char)
  | [], _ => .ok ([], orig)
  | c :: rest, acc =>
    if c.isAlpha then getSchemeAux orig rest (acc ++ [c])
    else if c.isDigit || c = '+' || c = '-' || c = '.' then
      if acc = [] then .ok ([], orig) else getSchemeAux orig rest (acc ++ [c])
    else if c = ':' then
      if acc = [] then .error () else .ok (acc, rest)
    else .ok ([], orig)

/-- Entry point of the scheme splitter (see `getSchemeAux`). -/
def getScheme (s : List Char) : Except Unit (List Char × List Char) :=
  getSchemeAux s s []

/-- Split a path-and-query string at the first `?`. -/
def splitQuery (s : List Char) : List Char × List Char :=
  let p := s.takeWhile (fun c => c ≠ '?')
  (p, (s.drop p.length).drop 1)

/-- Modelled from Go `net/url.Parse`, restricted to the URL shapes the
scraper handles: control characters and bad percent-escapes and a leading
`:` yield `none` (Go returns an error); otherwise scheme, `//host`
authority, path and query are split out and the fragment is discarded. -/
def parseURL (s : List Char) : Option GoURL :=
  if s.any ctlChar then none
  else if !percentOk s then none
  else
    match getScheme s with
    | .error _ => none
    | .ok (scheme, rest0) =>
      let rest := rest0.takeWhile (fun c => c ≠ '#')
      if ("//".toList).isPrefixOf rest then
        let afterAuth := rest.drop 2
        let host := afterAuth.takeWhile (fun c => c ≠ '/' && c ≠ '?')
        let (path, query) := splitQuery (afterAuth.drop host.length)
        some ⟨scheme.map asciiLower, host, path, query⟩
      else
        let (path, query) := splitQuery rest
        some ⟨scheme.map asciiLower, [], path, query⟩

/-- Everything of `base` up to and including its last `/` (Go's
`base[:strings.LastIndex(base, "/")+1]`); empty when `base` has no slash. -/
def upToLastSlash (base : List Char) : List Char :=
  (base.reverse.dropWhile (fun c => c ≠ '/')).reverse

/-- Drop the last path segment of `str` (everything from the last `/` on,
the slash included); `none` when `str` contains no `/`. -/
def dropLastSeg (str : List Char) : Option (List Char) :=
  if str.any (fun c => c = '/') then
    some ((str.reverse.dropWhile (fun c => c ≠ '/')).reverse.dropLast)
  else none

/-- Segment loop of Go `net/url.resolvePath`: processes the `/`-separated
segments of the merged path, maintaining the output `dst` (with its leading
`/`) and the `first` flag; returns the final `dst` and the last segment. -/
def segLoop : List Char → Bool → List (List Char) → List Char × List Char
  | dst, _, [] => (dst, [])
  | dst, first, e :: es =>
    let next :=
      if e = ['.'] then (dst, false)
      else if e = ['.', '.'] then
        let str := dst.drop 1
        match dropLastSeg str with
        | none => (['/'], true)
        | some pre => ('/' :: pre, first)
      else
        ((if !first then dst ++ ['/'] else dst) ++ e, false)
    match es with
    | [] => ((if e = ['.'] || e = ['.', '.'] then next.1 ++ ['/'] else next.1), e)
    | _ => segLoop next.1 next.2 es

/-- Modelled from Go `net/url.resolvePath(base, ref)`: merge `ref` into
`base`, then remove `.` and `..` segments, always producing a leading `/`. -/
def resolvePath (base ref : List Char) : List Char :=
  let full :=
    if ref = [] then base
    else if ref.head? ≠ some '/' then upToLastSlash base ++ ref
    else ref
  if full = [] then []
  else
    let (dst, _) := segLoop ['/'] true (full.splitOn '/')
    if dst.length > 1 && dst.get? 1 = some '/' then dst.drop 1 else dst

/-- Modelled from Go `(*url.URL).ResolveReference`, restricted to the
modelled components: an absolute or authority-carrying reference keeps its
own host (inheriting the base's scheme when it has none); otherwise the
base's host is kept and the paths are merged via `resolvePath`. -/
def resolveReference (base ref : GoURL) : GoURL :=
  let scheme := if ref.scheme = [] then base.scheme else ref.scheme
  if ref.scheme ≠ [] ∨ ref.host ≠ [] then
    { scheme := scheme, host := ref.host, path := resolvePath ref.path [], query := ref.query }
  else
    let query := if ref.path = [] ∧ ref.query = [] then base.query else ref.query
    { scheme := scheme, host := base.host, path := resolvePath base.path ref.path, query := query }

/-- Modelled from Go `(*url.URL).String()`, restricted to the modelled
components: `scheme:` when a scheme is present, `//host` when a host is
present, then the path (given a `/` separator when a host precedes it and
it does not start with one), then `?query` when a query is present. -/
def urlString (u : GoURL) : List Char :=
  (if u.scheme ≠ [] then u.scheme ++ [':'] else []) ++
  (if u.host ≠ [] then '/' :: '/' :: u.host else []) ++
  (if u.path ≠ [] ∧ u.path.head? ≠ some '/' ∧ u.host ≠ [] then '/' :: u.path else u.path) ++
  (if u.query ≠ [] then '?' :: u.query else [])

/-- Returns `utils.ResolveURL(base, ref)`: parse `ref`; on a parse error
return `ref` unchanged, otherwise resolve against `base` and render. -/
def ResolveURL (base : GoURL) (ref : List Char) : List Char :=
  match parseURL ref with
  | none => ref
  | some u => urlString (resolveReference base u)

/-- HTTP response as seen by the Go code: status code, `Content-Type` header
and body. Transport errors and body-read errors are both modelled by the
oracle returning `none` (the Go code treats them alike: the download fails). -/
structure Resp where
  status : Nat
  contentType : List Char
  body : List Char

/-- Network oracle standing for `http.Get` / the pooled client's `Get`. -/
def Fetch := List Char → Option Resp

/-- Log of filesystem writes `(path, bytes)` performed by `os.WriteFile`. -/
abbrev Writes := List (List Char × List Char)

/-- Log of URLs fetched, in order. -/
abbrev FLog := List (List Char)

/-- Match of the regexp `url\((['"]?)([^)'"]+)['"]?\)` anchored at the head of
`l` (used by `LocalizeFontURLs` and `collectFontJobsFromCSS`): after `url(`
an optional quote, then the greedy capture of characters outside `)'"`
(at least one), then an optional quote and `)`. Returns the capture and the
remainder after the whole match. -/
def urlRefAt (l : List Char) : Option (List Char × List Char) :=
  if ("url(".toList).isPrefixOf l then
    let r0 := l.drop 4
    let r1 := if r0.head? = some '\'' || r0.head? = some '"' then r0.tail else r0
    let cap := r1.takeWhile (fun c => c ≠ ')' && c ≠ '\'' && c ≠ '"')
    if cap = [] then none
    else
      match r1.drop cap.length with
      | ')' :: rest => some (cap, rest)
      | q :: ')' :: rest => if q = '\'' || q = '"' then some (cap, rest) else none
      | _ => none
  else none

/-- Fuel-driven `FindAllStringSubmatch` for the `url(...)` regexp: all
captures of leftmost non-overlapping matches, left to right. -/
def findURLRefsF : Nat → List Char → List (List Char)
  | 0, _ => []
  | _ + 1, [] => []
  | f + 1, c :: cs =>
    match urlRefAt (c :: cs) with
    | some (cap, rest) => cap :: findURLRefsF f rest
    | none => findURLRefsF f cs

/-- All `url(...)` captures of a CSS text, in match order. -/
def findURLRefs (l : List Char) : List (List Char) :=
  findURLRefsF l.length l

/-- Body of the per-match loop of `assets.LocalizeFontURLs` (processor
source, `LocalizeFontURLs`): build the absolute font URL (absolute kept,
`//…` gets the base's scheme, otherwise resolved), fetch it — the HTTP
status is never inspected — persist the body under
`output/assets/fonts/<last path segment>`, and replace both the original
reference and (when different) the resolved URL by `fonts/<name>`. -/
def fontStep (fetch : Fetch) (base : GoURL)
    (st : List Char × Writes × FLog) (fontPath : List Char) :
    List Char × Writes × FLog :=
  let (css, ws, fs) := st
  let fontURL :=
    if hasPre fontPath ("http://".toList) || hasPre fontPath ("https://".toList) then fontPath
    else if hasPre fontPath ("//".toList) then base.scheme ++ ':' :: fontPath
    else ResolveURL base fontPath
  match fetch fontURL with
  | none => (css, ws, fs ++ [fontURL])
  | some resp =>
    match parseURL fontURL with
    | none => (css, ws, fs ++ [fontURL])
    | some u =>
      let filename := (u.path.splitOn '/').getLastD []
      let localFontPath := "output/assets/fonts/".toList ++ filename
      let rel := "fonts/".toList ++ filename
      let css1 := replaceAll css fontPath rel
      let css2 := if fontPath ≠ fontURL then replaceAll css1 fontURL rel else css1
      (css2, ws ++ [(localFontPath, resp.body)], fs ++ [fontURL])

/-- Returns `assets.LocalizeFontURLs(cssContent, base)`: the `url(...)`
matches are computed once on the incoming text, then each is fetched and
substituted in order. Result: rewritten CSS, write log, fetch log. -/
def LocalizeFontURLs (fetch : Fetch) (cssContent : List Char) (base : GoURL) :
    List Char × Writes × FLog :=
  (findURLRefs cssContent).foldl (fontStep fetch base) (cssContent, [], [])

/-- Returns `assets.DownloadResource(resourceURL, ext, base)` from
`assets/downloader.go`: fetch; a status other than 200 is an error and
nothing is written; the file is named by the final URL path segment with
the extension enforced; CSS bodies are font-localized and source-map
stripped, JS bodies are source-map stripped, before the single write under
`output/assets/`. -/
def DownloadResource (fetch : Fetch) (resourceURL ext : List Char) (base : GoURL) :
    Except (List Char) (List Char) × Writes × FLog :=
  match fetch resourceURL with
  | none => (.error ("network error".toList), [], [resourceURL])
  | some resp =>
    if resp.status ≠ 200 then (.error ("bad status".toList), [], [resourceURL])
    else
      match parseURL resourceURL with
      | none => (.error ("parse error".toList), [], [resourceURL])
      | some u =>
        let filename0 := (u.path.splitOn '/').getLastD []
        let filename := if hasSuf filename0 ('.' :: ext) then filename0 else filename0 ++ '.' :: ext
        let localPath := "output/assets/".toList ++ filename
        if ext = "css".toList then
          let (css1, w1, f1) := LocalizeFontURLs fetch resp.body base
          let data := RemoveSourceMapReferences css1
          (.ok localPath, w1 ++ [(localPath, data)], resourceURL :: f1)
        else if ext = "js".toList then
          let data := RemoveSourceMapReferences resp.body
          (.ok localPath, [(localPath, data)], [resourceURL])
        else
          (.ok localPath, [(localPath, resp.body)], [resourceURL])

/-- Returns `DownloadImage` (same body as the pooled `downloadImage` in
`assets/concurrent.go`): status 200 required; a filename with no dot gets
an extension inferred from the `Content-Type`, defaulting to `.jpg`; the
body is written under `output/assets/images/`. -/
def downloadImage (fetch : Fetch) (imageURL : List Char) :
    Except (List Char) (List Char) × Writes × FLog :=
  match fetch imageURL with
  | none => (.error ("network error".toList), [], [imageURL])
  | some resp =>
    if resp.status ≠ 200 then (.error ("bad status".toList), [], [imageURL])
    else
      match parseURL imageURL with
      | none => (.error ("parse error".toList), [], [imageURL])
      | some u =>
        let filename0 := (u.path.splitOn '/').getLastD []
        let filename :=
          if !(filename0.any (fun c => c = '.')) then
            if resp.contentType = "image/jpeg".toList then filename0 ++ ".jpg".toList
            else if resp.contentType = "image/png".toList then filename0 ++ ".png".toList
            else if resp.contentType = "image/gif".toList then filename0 ++ ".gif".toList
            else if resp.contentType = "image/webp".toList then filename0 ++ ".webp".toList
            else if resp.contentType = "image/svg+xml".toList then filename0 ++ ".svg".toList
            else filename0 ++ ".jpg".toList
          else filename0
        let localPath := "output/assets/images/".toList ++ filename
        (.ok localPath, [(localPath, resp.body)], [imageURL])

/-- Returns the pooled `downloadFont` of `assets/concurrent.go`: status 200
required; the body is written under `output/assets/fonts/` named by the
final URL path segment. -/
def downloadFont (fetch : Fetch) (fontURL : List Char) :
    Except (List Char) (List Char) × Writes × FLog :=
  match fetch fontURL with
  | none => (.error ("network error".toList), [], [fontURL])
  | some resp =>
    if resp.status ≠ 200 then (.error ("bad status".toList), [], [fontURL])
    else
      match parseURL fontURL with
      | none => (.error ("parse error".toList), [], [fontURL])
      | some u =>
        let filename := (u.path.splitOn '/').getLastD []
        let localPath := "output/assets/fonts/".toList ++ filename
        (.ok localPath, [(localPath, resp.body)], [fontURL])

/-- Decidable rendering of the capture pattern of the template regexp
`"([^"]*\\?\/[^"]*\{[^}]+\}[^"]*\.(?:css|js)(?:\?[^"]*)?)"` on the content
of one quoted span: some `/` is followed by a `{placeholder}` (non-empty,
brace-free interior) and later a `.css`/`.js` that ends the span or is
followed by a `?` query. Match existence over all decompositions, which is
what Go's backtracking decides for a span between consecutive quotes. -/
def templateContentOk (c : List Char) : Bool :=
  (List.range c.length).any fun i =>
    c.get? i = some '/' &&
    ((List.range c.length).any fun j =>
      decide (i < j) && c.get? j = some '{' &&
      ((List.range (c.length + 1)).any fun k =>
        decide (j + 1 < k) && c.get? k = some '}' &&
        ((List.range (k - j - 1)).all fun t => !(c.get? (j + 1 + t) = some '}')) &&
        ((List.range (c.length + 1)).any fun m =>
          decide (k < m) &&
          ((hasPre (c.drop m) (".css".toList) &&
             (decide ((c.drop m).length = 4) || (c.drop m).get? 4 = some '?')) ||
           (hasPre (c.drop m) (".js".toList) &&
             (decide ((c.drop m).length = 3) || (c.drop m).get? 3 = some '?'))))))

/-- Extensions of the direct-URL regexp in `LocalizeJavaScriptURLs`. -/
def directExts : List (List Char) :=
  ["css".toList, "js".toList, "png".toList, "jpg".toList, "jpeg".toList,
   "gif".toList, "webp".toList, "svg".toList]

/-- Decidable rendering of the capture pattern of the direct-URL regexp
`"(https?:\\?\/\\?\/[^"]*\.(?:css|js|png|jpg|jpeg|gif|webp|svg)(?:\?[^"]*)?)"`
on one quoted span: an `http(s):` scheme, two slashes each optionally
preceded by a backslash, and somewhere later a recognized `.ext` ending the
span or followed by a `?` query. -/
def directContentOk (c : List Char) : Bool :=
  let afterScheme : Option (List Char) :=
    if hasPre c ("https:".toList) then some (c.drop 6)
    else if hasPre c ("http:".toList) then some (c.drop 5)
    else none
  match afterScheme with
  | none => false
  | some r =>
    let r1 := if r.head? = some '\\' then r.tail else r
    match r1 with
    | '/' :: r2 =>
      let r3 := if r2.head? = some '\\' then r2.tail else r2
      match r3 with
      | '/' :: r4 =>
        (List.range (r4.length + 1)).any fun m =>
          directExts.any fun ext =>
            hasPre (r4.drop m) ('.' :: ext) &&
            (decide ((r4.drop m).length = ext.length + 1) ||
             (r4.drop m).get? (ext.length + 1) = some '?')
      | _ => false
    | _ => false

/-- Fuel-driven span scanner shared by the quote-anchored regexps of
`LocalizeJavaScriptURLs`: each match is the content between two consecutive
double quotes satisfying `ok`; on a match the scan resumes after the
closing quote, otherwise one character past the opening quote
(leftmost-first, non-overlapping, as `FindAllStringSubmatch` does). -/
def findSpansF (ok : List Char → Bool) : Nat → List Char → List (List Char)
  | 0, _ => []
  | _ + 1, [] => []
  | f + 1, c :: cs =>
    if c = '"' then
      let span := cs.takeWhile (fun x => x ≠ '"')
      match cs.drop span.length with
      | '"' :: rest2 =>
        if ok span then span :: findSpansF ok f rest2
        else findSpansF ok f cs
      | _ => findSpansF ok f cs
    else findSpansF ok f cs

/-- Captures of the template regexp over a whole JS text. -/
def findTemplateMatches (l : List Char) : List (List Char) :=
  findSpansF templateContentOk l.length l

/-- Captures of the direct-URL regexp over a whole JS text. -/
def findDirectMatches (l : List Char) : List (List Char) :=
  findSpansF directContentOk l.length l

/-- Match of `"name":\s*"([^"]+)"` anchored at the head of `l`. -/
def tryFieldStrAt (name l : List Char) : Option (List Char) :=
  let key := '"' :: (name ++ "\":".toList)
  if key.isPrefixOf l then
    match (l.drop key.length).dropWhile goSpace with
    | '"' :: r2 =>
      let v := r2.takeWhile (fun x => x ≠ '"')
      if v ≠ [] ∧ (r2.drop v.length).head? = some '"' then some v else none
    | _ => none
  else none

/-- Match of `"name":\s*(\d+)` anchored at the head of `l`. -/
def tryFieldNumAt (name l : List Char) : Option (List Char) :=
  let key := '"' :: (name ++ "\":".toList)
  if key.isPrefixOf l then
    let v := ((l.drop key.length).dropWhile goSpace).takeWhile Char.isDigit
    if v ≠ [] then some v else none
  else none

/-- Fuel-driven leftmost search returning the first capture of an anchored
matcher (Go `FindStringSubmatch`). -/
def findFirstF (tryAt : List Char → Option (List Char)) : Nat → List Char → Option (List Char)
  | 0, _ => none
  | _ + 1, [] => none
  | f + 1, c :: cs =>
    match tryAt (c :: cs) with
    | some v => some v
    | none => findFirstF tryAt f cs

/-- First capture of `"name":\s*"([^"]+)"` in `text`. -/
def findFieldStr (name text : List Char) : Option (List Char) :=
  findFirstF (tryFieldStrAt name) text.length text

/-- First capture of `"name":\s*(\d+)` in `text`. -/
def findFieldNum (name text : List Char) : Option (List Char) :=
  findFirstF (tryFieldNumAt name) text.length text

/-- Match of the Complianz pattern
`"css_file":"([^"]*banner-\{banner_id\}-\{type\}[^"]*)"` anchored at the
head of `l`: the key, then a span to the next quote whose content contains
the literal template. -/
def tryCssFileAt (l : List Char) : Option (List Char) :=
  let key := "\"css_file\":\"".toList
  if key.isPrefixOf l then
    let r := l.drop key.length
    let span := r.takeWhile (fun x => x ≠ '"')
    if (r.drop span.length).head? = some '"' &&
        containsSub span ("banner-{banner_id}-{type}".toList) then
      some span
    else none
  else none

/-- First capture of the Complianz `css_file` template pattern. -/
def findCssFileTemplate (text : List Char) : Option (List Char) :=
  findFirstF tryCssFileAt text.length text

/-- Captures of the fallback regexp
`"css_file":"([^"]*\\?\/[^"]*\{[^}]+\}[^"]*\.(?:css|js)(?:\?[^"]*)?)"`,
used only when the template regexp found nothing. -/
def tryCssFileTplAt (l : List Char) : Option (List Char × List Char) :=
  let key := "\"css_file\":\"".toList
  if key.isPrefixOf l then
    let r := l.drop key.length
    let span := r.takeWhile (fun x => x ≠ '"')
    if (r.drop span.length).head? = some '"' && templateContentOk span then
      some (span, (r.drop span.length).drop 1)
    else none
  else none

/-- Fuel-driven collection of all captures of the fallback matcher:
non-overlapping leftmost matches, resuming after each whole match and
advancing one character when no match starts here. -/
def findCssFileMatchesF : Nat → List Char → List (List Char)
  | 0, _ => []
  | _ + 1, [] => []
  | f + 1, c :: cs =>
    match tryCssFileTplAt (c :: cs) with
    | some (v, rest) => v :: findCssFileMatchesF f rest
    | none => findCssFileMatchesF f cs

/-- All captures of the fallback `css_file` template regexp. -/
def findCssFileMatches (text : List Char) : List (List Char) :=
  findCssFileMatchesF text.length text

/-- Captures of `\{([^}]+)\}`: the placeholder names of a template URL. -/
def findPlaceholdersF : Nat → List Char → List (List Char)
  | 0, _ => []
  | _ + 1, [] => []
  | f + 1, c :: cs =>
    if c = '{' then
      let nm := cs.takeWhile (fun x => x ≠ '}')
      match cs.drop nm.length with
      | '}' :: rest => if nm ≠ [] then nm :: findPlaceholdersF f rest else findPlaceholdersF f cs
      | _ => findPlaceholdersF f cs
    else findPlaceholdersF f cs

/-- All placeholder names `{...}` of a template URL, in order. -/
def findPlaceholders (l : List Char) : List (List Char) :=
  findPlaceholdersF l.length l

/-- Placeholder value lookup of `LocalizeJavaScriptURLs`: for `type` only
the hard-coded `consenttype` alias is consulted; otherwise the four
patterns are tried in order (`"name":"v"`, `"user_name":"v"`, `"name":v`,
`"user_name":v`) and then the `consenttype` fallback, first hit wins. -/
def lookupPlaceholder (name js : List Char) : List Char :=
  if name = "type".toList then (findFieldStr ("consenttype".toList) js).getD []
  else
    (((((findFieldStr name js).or
        (findFieldStr ("user_".toList ++ name) js)).or
        (findFieldNum name js)).or
        (findFieldNum ("user_".toList ++ name) js)).or
        (findFieldStr ("consenttype".toList) js)).getD []

/-- One iteration of the template-match loop of `LocalizeJavaScriptURLs`:
unescape the captured template, substitute every placeholder with a value
found in the current JS text, and when no brace remains and the result
mentions `.css`, download it and substitute the quoted template literal by
the local path. -/
def templateStep (fetch : Fetch) (base : GoURL)
    (st : List Char × Writes × FLog) (templateURL : List Char) :
    List Char × Writes × FLog :=
  let (js, ws, fs) := st
  let unescapedURL := replaceAll templateURL ("\\/".toList) ("/".toList)
  let resolvedURL := (findPlaceholders unescapedURL).foldl
    (fun acc nm =>
      let value := lookupPlaceholder nm js
      if value ≠ [] then replaceAll acc ('{' :: (nm ++ ['}'])) value else acc)
    unescapedURL
  if !(containsSub resolvedURL ['{']) && !(containsSub resolvedURL ['}']) then
    if containsSub resolvedURL (".css".toList) then
      let cssURL := ResolveURL base resolvedURL
      match DownloadResource fetch cssURL ("css".toList) base with
      | (.ok localPath, w, f) =>
        let rel := stripStorageRoot localPath
        (replaceAll js ('"' :: (templateURL ++ ['"'])) ('"' :: (rel ++ ['"'])),
         ws ++ w, fs ++ f)
      | (.error _, w, f) => (js, ws ++ w, fs ++ f)
    else (js, ws, fs)
  else (js, ws, fs)

/-- One iteration of the direct-URL loop of `LocalizeJavaScriptURLs`. -/
def directStep (fetch : Fetch) (base : GoURL)
    (st : List Char × Writes × FLog) (url : List Char) :
    List Char × Writes × FLog :=
  let (js, ws, fs) := st
  let unescapedURL := replaceAll url ("\\/".toList) ("/".toList)
  if containsSub unescapedURL (".css".toList) then
    let cssURL := ResolveURL base unescapedURL
    match DownloadResource fetch cssURL ("css".toList) base with
    | (.ok localPath, w, f) =>
      let rel := stripStorageRoot localPath
      (replaceAll js ('"' :: (url ++ ['"'])) ('"' :: (rel ++ ['"'])),
       ws ++ w, fs ++ f)
    | (.error _, w, f) => (js, ws ++ w, fs ++ f)
  else (js, ws, fs)

/-- Returns `assets.LocalizeJavaScriptURLs(jsContent, base)` of the
concurrent processor source: template matches are computed on the incoming
text (with the `css_file` fallback when empty); the Complianz special case
resolves `banner-{banner_id}-{type}` from `user_banner_id`/`consenttype`
and downloads the resolved stylesheet; then the (stale) template-match loop
runs, then the direct-URL loop on the current text. Result: rewritten JS,
write log, fetch log. -/
def LocalizeJavaScriptURLs (fetch : Fetch) (jsContent0 : List Char) (base : GoURL) :
    List Char × Writes × FLog :=
  let tm0 := findTemplateMatches jsContent0
  let templateMatches := if tm0 = [] then findCssFileMatches jsContent0 else tm0
  let st1 :=
    if containsSub jsContent0 ("css_file".toList) &&
        containsSub jsContent0 ("banner-{banner_id}-{type}".toList) then
      match findFieldStr ("user_banner_id".toList) jsContent0,
            findFieldStr ("consenttype".toList) jsContent0,
            findCssFileTemplate jsContent0 with
      | some bannerId, some consentType, some templateURL =>
        let r1 := replaceAll templateURL ("{banner_id}".toList) bannerId
        let r2 := replaceAll r1 ("{type}".toList) consentType
        let resolvedURL := replaceAll r2 ("\\/".toList) ("/".toList)
        match DownloadResource fetch resolvedURL ("css".toList) base with
        | (.ok localPath, w, f) =>
          let rel := stripStorageRoot localPath
          (replaceAll (replaceAll jsContent0 templateURL rel) resolvedURL rel, w, f)
        | (.error _, w, f) => (jsContent0, w, f)
      | _, _, _ => (jsContent0, [], [])
    else (jsContent0, [], [])
  let st2 := templateMatches.foldl (templateStep fetch base) st1
  (findDirectMatches st2.1).foldl (directStep fetch base) st2

/-- `assets.DownloadJob` of `assets/concurrent.go`. -/
structure DownloadJob where
  url : List Char
  jobType : List Char
  originalPath : List Char
  baseURL : GoURL
  retryCount : Nat
deriving Repr, DecidableEq

/-- `assets.DownloadResult` of `assets/concurrent.go` (the `Error` field is
reduced to an optional message). -/
structure DownloadResult where
  job : DownloadJob
  localPath : List Char
  success : Bool
  errMsg : Option (List Char)
deriving Repr, DecidableEq

/-- Returns the pooled `(*ConcurrentDownloader).downloadResource` of
`assets/concurrent.go`: identical to `DownloadResource` except that JS
bodies additionally run through `LocalizeJavaScriptURLs` before the
source-map strip. -/
def cdDownloadResource (fetch : Fetch) (resourceURL ext : List Char) (base : GoURL) :
    Except (List Char) (List Char) × Writes × FLog :=
  match fetch resourceURL with
  | none => (.error ("network error".toList), [], [resourceURL])
  | some resp =>
    if resp.status ≠ 200 then (.error ("bad status".toList), [], [resourceURL])
    else
      match parseURL resourceURL with
      | none => (.error ("parse error".toList), [], [resourceURL])
      | some u =>
        let filename0 := (u.path.splitOn '/').getLastD []
        let filename := if hasSuf filename0 ('.' :: ext) then filename0 else filename0 ++ '.' :: ext
        let localPath := "output/assets/".toList ++ filename
        if ext = "css".toList then
          let (css1, w1, f1) := LocalizeFontURLs fetch resp.body base
          let data := RemoveSourceMapReferences css1
          (.ok localPath, w1 ++ [(localPath, data)], resourceURL :: f1)
        else if ext = "js".toList then
          let (js1, w1, f1) := LocalizeJavaScriptURLs fetch resp.body base
          let data := RemoveSourceMapReferences js1
          (.ok localPath, w1 ++ [(localPath, data)], resourceURL :: f1)
        else
          (.ok localPath, [(localPath, resp.body)], [resourceURL])

/-- Returns `(*ConcurrentDownloader).processJob` of `assets/concurrent.go`:
dispatch on the job type; an error yields a failed `DownloadResult` with no
local path, success carries the returned local path. -/
def processJob (fetch : Fetch) (job : DownloadJob) : DownloadResult × Writes × FLog :=
  let out :=
    if job.jobType = "css".toList ∨ job.jobType = "js".toList ∨ job.jobType = "json".toList then
      cdDownloadResource fetch job.url job.jobType job.baseURL
    else if job.jobType = "image".toList then
      downloadImage fetch job.url
    else if job.jobType = "font".toList then
      downloadFont fetch job.url
    else
      (.error ("unknown job type".toList), [], [])
  match out with
  | (.error e, w, f) => ({ job := job, localPath := [], success := false, errMsg := some e }, w, f)
  | (.ok p, w, f) => ({ job := job, localPath := p, success := true, errMsg := none }, w, f)

/-- Association-list rendering of the Go map write `m[k] = v`. -/
def upsert (m : List (List Char × List Char)) (k v : List Char) :
    List (List Char × List Char) :=
  if m.any (fun p => p.1 = k) then
    m.map (fun p => if p.1 = k then (k, v) else p)
  else m ++ [(k, v)]

/-- Returns the result-collection loop of
`(*ConcurrentDownloader).GetResults` (`assets/concurrent.go`): fold the
delivered results in order; a successful result stores
`urlMap[r.Job.OriginalPath] = r.LocalPath`, a failed result stores
nothing. -/
def GetResults (results : List DownloadResult) : List (List Char × List Char) :=
  results.foldl
    (fun m r => if r.success then upsert m r.job.originalPath r.localPath else m) []

/-- Retry ladder of the worker loop in `assets/concurrent.go`
(`worker`, the `!result.Success && job.RetryCount < 3` branch): the oracle
`succeeds rc` tells whether the attempt processed with `RetryCount = rc`
succeeds. This is the sequential semantics of the re-queue: every re-queued
job is eventually taken by some worker. Returns (number of attempts,
success flag of the finalized result). -/
def retryLadder (succeeds : Nat → Bool) (rc : Nat) : Nat × Bool :=
  if succeeds rc then (1, true)
  else if rc < 3 then
    let r := retryLadder succeeds (rc + 1)
    (r.1 + 1, r.2)
  else (1, false)
termination_by 4 - rc
decreasing_by omega

/-- State of the one-worker pool of `assets/concurrent.go` as driven by
`LocalizeAssets`: the buffered `jobs` channel (already closed —
`FinishJobs` is called synchronously right after the `AddJob` loop, before
any retry can fire), the worker's current job, the not-yet-fired
asynchronous retry goroutines, the results delivered to `GetResults`
(job paired with its success flag), whether `GetResults` has returned, and
whether a goroutine panicked (send on the closed `jobs` channel). -/
structure PoolState where
  queue : List DownloadJob
  jobsClosed : Bool
  workerJob : Option DownloadJob
  workerExited : Bool
  pending : List DownloadJob
  results : List (DownloadJob × Bool)
  collected : Bool
  panicked : Bool
deriving Repr, DecidableEq

/-- Small-step semantics of the worker/retry/collect interplay of
`assets/concurrent.go` for one worker; `outcome j` is whether
`processJob j` succeeds. `take` is the worker receiving from the `jobs`
channel; `exitWorker` is the `range` loop ending on the closed, drained
channel; `completeRetry` spawns the delayed re-queue goroutine
(`RetryCount < 3`); `completeFinal` delivers the result; `retryFire` is the
goroutine's send while the channel is open, `retryPanic` its send after
close (a send on a closed channel panics); `collectReturn` is `GetResults`
returning once `wg.Wait` finishes and the results channel is drained. -/
inductive PoolStep (outcome : DownloadJob → Bool) : PoolState → PoolState → Prop
  | take (s : PoolState) (j : DownloadJob) (q' : List DownloadJob) :
      s.workerJob = none → s.workerExited = false → s.panicked = false →
      s.queue = j :: q' →
      PoolStep outcome s { s with queue := q', workerJob := some j }
  | exitWorker (s : PoolState) :
      s.workerJob = none → s.queue = [] → s.jobsClosed = true →
      s.workerExited = false → s.panicked = false →
      PoolStep outcome s { s with workerExited := true }
  | completeRetry (s : PoolState) (j : DownloadJob) :
      s.workerJob = some j → outcome j = false → j.retryCount < 3 →
      s.panicked = false →
      PoolStep outcome s
        { s with workerJob := none,
                 pending := { j with retryCount := j.retryCount + 1 } :: s.pending }
  | completeFinal (s : PoolState) (j : DownloadJob) :
      s.workerJob = some j → (outcome j = true ∨ 3 ≤ j.retryCount) →
      s.panicked = false →
      PoolStep outcome s
        { s with workerJob := none, results := s.results ++ [(j, outcome j)] }
  | retryFire (s : PoolState) (j : DownloadJob) :
      j ∈ s.pending → s.jobsClosed = false → s.panicked = false →
      PoolStep outcome s
        { s with queue := s.queue ++ [j], pending := s.pending.erase j }
  | retryPanic (s : PoolState) (j : DownloadJob) :
      j ∈ s.pending → s.jobsClosed = true → s.panicked = false →
      PoolStep outcome s { s with panicked := true }
  | collectReturn (s : PoolState) :
      s.workerExited = true → s.collected = false → s.panicked = false →
      PoolStep outcome s { s with collected := true }

/-- Initial pool state after `LocalizeAssets` has queued the jobs and called
`FinishJobs` (which closes the `jobs` channel), with the worker idle. -/
def initPool (jobs : List DownloadJob) : PoolState :=
  { queue := jobs, jobsClosed := true, workerJob := none, workerExited := false,
    pending := [], results := [], collected := false, panicked := false }

/-- Reachability under the pool semantics. -/
def poolReach (outcome : DownloadJob → Bool) : PoolState → PoolState → Prop :=
  Relation.ReflTransGen (PoolStep outcome)

/-- Returns `assets.updateHTMLWithLocalPaths(htmlContent, base, urlMap)` of
the concurrent processor source: one global `strings.ReplaceAll` per map
entry, substituting the origin string by the local path with the
`output/` storage root stripped. (The Go map iteration order is modelled by
the list order of the entries.) -/
def updateHTMLWithLocalPaths (htmlContent : List Char)
    (urlMap : List (List Char × List Char)) : List Char :=
  urlMap.foldl (fun h e => replaceAll h e.1 (stripStorageRoot e.2)) htmlContent

/-- Parsed HTML node as produced by `golang.org/x/net/html.Parse`
(the scanner only distinguishes element nodes — tag, attributes in source
order, children — and text nodes). -/
inductive HNode where
  | elem (tag : List Char) (attrs : List (List Char × List Char)) (children : List HNode)
  | text (s : List Char)

/-- Scanner state of `collectAssetJobs`: the `urlSeen` dedup set and the
jobs emitted so far, in order. -/
structure ScanSt where
  seen : List (List Char)
  jobs : List DownloadJob

/-- The `if !urlSeen[resolvedURL] { urlSeen[resolvedURL] = true;
jobs = append(jobs, …) }` pattern guarding every emission. -/
def addIfNew (st : ScanSt) (u : List Char) (job : DownloadJob) : ScanSt :=
  if st.seen.any (fun x => x = u) then st
  else { seen := u :: st.seen, jobs := st.jobs ++ [job] }

/-- Last-wins attribute extraction (`for _, attr := range n.Attr { if
attr.Key == k { v = attr.Val } }`), empty when absent. -/
def getAttr (attrs : List (List Char × List Char)) (key : List Char) : List Char :=
  attrs.foldl (fun acc p => if p.1 = key then p.2 else acc) []

/-- `<link>` handling of `collectAssetJobs`: stylesheet/preload hrefs become
`css` jobs, manifest hrefs `json` jobs, icon variants `image` jobs, each
guarded by the dedup set. -/
def linkHandler (base : GoURL) (attrs : List (List Char × List Char)) (st : ScanSt) : ScanSt :=
  let href := getAttr attrs ("href".toList)
  let rel := getAttr attrs ("rel".toList)
  let st1 :=
    if (rel = "stylesheet".toList ∨ rel = "preload".toList) ∧ href ≠ [] then
      let r := ResolveURL base href
      addIfNew st r ⟨r, "css".toList, href, base, 0⟩
    else st
  let st2 :=
    if rel = "manifest".toList ∧ href ≠ [] then
      let r := ResolveURL base href
      addIfNew st1 r ⟨r, "json".toList, href, base, 0⟩
    else st1
  if (rel = "icon".toList ∨ rel = "shortcut icon".toList ∨
      rel = "apple-touch-icon".toList) ∧ href ≠ [] then
    let r := ResolveURL base href
    addIfNew st2 r ⟨r, "image".toList, href, base, 0⟩
  else st2

/-- `<script src>` handling of `collectAssetJobs`. -/
def scriptHandler (base : GoURL) (attrs : List (List Char × List Char)) (st : ScanSt) : ScanSt :=
  let src := getAttr attrs ("src".toList)
  if src ≠ [] then
    let r := ResolveURL base src
    addIfNew st r ⟨r, "js".toList, src, base, 0⟩
  else st

/-- Go `strings.TrimSpace` (ASCII whitespace). -/
def trimSpace (l : List Char) : List Char :=
  ((l.dropWhile goSpace).reverse.dropWhile goSpace).reverse

/-- Go `strings.Fields`: whitespace-separated fields. -/
def fieldsOf (l : List Char) : List (List Char) :=
  (l.splitOnP goSpace).filter (fun f => f ≠ [])

/-- Returns `collectSrcsetJobsWithDupeCheck`: split the `srcset` value on
commas, take the URL of each entry, and emit an `image` job for every
absolute http(s) URL not already seen. -/
def collectSrcsetJobsWithDupeCheck (base : GoURL) (srcsetContent : List Char)
    (st : ScanSt) : ScanSt :=
  (srcsetContent.splitOn ',').foldl
    (fun st entry0 =>
      let entry := trimSpace entry0
      if entry = [] then st
      else
        match fieldsOf entry with
        | [] => st
        | imageURL :: _ =>
          if hasPre imageURL ("http://".toList) || hasPre imageURL ("https://".toList) then
            let r := ResolveURL base imageURL
            addIfNew st r ⟨r, "image".toList, imageURL, base, 0⟩
          else st)
    st

/-- Per-attribute step of the `<img>` handling in `collectAssetJobs`: the
Go loop declares `src` freshly for each attribute, so both `src` and
`data-src` emit, and `srcset` is expanded in place (sharing the dedup
set). Only absolute http(s) references qualify. -/
def imgAttrStep (base : GoURL) (st : ScanSt) (attr : List Char × List Char) : ScanSt :=
  let src := if attr.1 = "src".toList ∨ attr.1 = "data-src".toList then attr.2 else []
  let st1 :=
    if src ≠ [] ∧ (hasPre src ("http://".toList) || hasPre src ("https://".toList)) then
      let r := ResolveURL base src
      addIfNew st r ⟨r, "image".toList, src, base, 0⟩
    else st
  if attr.1 = "srcset".toList then collectSrcsetJobsWithDupeCheck base attr.2 st1 else st1

/-- `<meta>` handling of `collectAssetJobs`: `og:image`,
`og:image:secure_url`, `twitter:image` and `msapplication-TileImage`
contents that are absolute http(s) URLs become `image` jobs. -/
def metaHandler (base : GoURL) (attrs : List (List Char × List Char)) (st : ScanSt) : ScanSt :=
  let content := getAttr attrs ("content".toList)
  let property := getAttr attrs ("property".toList)
  let name := getAttr attrs ("name".toList)
  let isImageMeta := property = "og:image".toList ∨ property = "og:image:secure_url".toList ∨
    name = "twitter:image".toList ∨ name = "msapplication-TileImage".toList
  if isImageMeta ∧ content ≠ [] ∧
      (hasPre content ("http://".toList) || hasPre content ("https://".toList)) then
    let r := ResolveURL base content
    addIfNew st r ⟨r, "image".toList, content, base, 0⟩
  else st

/-- Match of `background-image:\s*url\(['"]?([^'"]+)['"]?\)` anchored at the
head of `l`; returns the capture and the remainder after the match. The
greedy quote-free capture either runs to a quote directly followed by `)`,
or backtracks to its last `)`. -/
def bgMatchAt (l : List Char) : Option (List Char × List Char) :=
  if ("background-image:".toList).isPrefixOf l then
    let r := (l.drop 17).dropWhile goSpace
    if ("url(".toList).isPrefixOf r then
      let r0 := r.drop 4
      let r1 := if r0.head? = some '\'' || r0.head? = some '"' then r0.tail else r0
      let t := r1.takeWhile (fun c => c ≠ '\'' && c ≠ '"')
      if t = [] then none
      else
        match r1.drop t.length with
        | q :: ')' :: rest =>
          if q = '\'' || q = '"' then some (t, rest)
          else none
        | _ =>
          if t.any (fun c => c = ')') then
            let pre := (t.reverse.dropWhile (fun c => c ≠ ')')).reverse.dropLast
            if pre ≠ [] then some (pre, r1.drop (pre.length + 1)) else none
          else none
    else none
  else none

/-- Fuel-driven `FindAllStringSubmatch` for the background-image regexp. -/
def findBgRefsF : Nat → List Char → List (List Char)
  | 0, _ => []
  | _ + 1, [] => []
  | f + 1, c :: cs =>
    match bgMatchAt (c :: cs) with
    | some (cap, rest) => cap :: findBgRefsF f rest
    | none => findBgRefsF f cs

/-- All background-image url captures of a style attribute value. -/
def findBgRefs (l : List Char) : List (List Char) :=
  findBgRefsF l.length l

/-- Returns `collectStyleBackgroundJobsWithDupeCheck`: each absolute
http(s) background-image URL becomes an `image` job guarded by the dedup
set. -/
def collectStyleBackgroundJobsWithDupeCheck (base : GoURL) (styleContent : List Char)
    (st : ScanSt) : ScanSt :=
  (findBgRefs styleContent).foldl
    (fun st imagePath =>
      if hasPre imagePath ("http://".toList) || hasPre imagePath ("https://".toList) then
        let r := ResolveURL base imagePath
        addIfNew st r ⟨r, "image".toList, imagePath, base, 0⟩
      else st)
    st

/-- Per-attribute step of the style-attribute scan applied to every
element node. -/
def styleAttrStep (base : GoURL) (st : ScanSt) (attr : List Char × List Char) : ScanSt :=
  if attr.1 = "style".toList ∧ containsSub attr.2 ("background-image".toList) then
    collectStyleBackgroundJobsWithDupeCheck base attr.2 st
  else st

mutual
/-- Node case of the `traverse` closure of `collectAssetJobs` (concurrent
processor source): run the tag-specific handlers, then the style-attribute
scan, then recurse into the children, threading the shared dedup set. -/
def travNode (base : GoURL) : HNode → ScanSt → ScanSt
  | .text _, st => st
  | .elem tag attrs children, st =>
    let st1 := if tag = "link".toList then linkHandler base attrs st else st
    let st2 := if tag = "script".toList then scriptHandler base attrs st1 else st1
    let st3 := if tag = "img".toList then attrs.foldl (imgAttrStep base) st2 else st2
    let st4 := if tag = "meta".toList then metaHandler base attrs st3 else st3
    let st5 := attrs.foldl (styleAttrStep base) st4
    travList base children st5

/-- Children traversal of `collectAssetJobs`. -/
def travList (base : GoURL) : List HNode → ScanSt → ScanSt
  | [], st => st
  | c :: cs, st => travList base cs (travNode base c st)
end

/-- Returns `assets.collectAssetJobs(htmlContent, base)` of the concurrent
processor source, starting from the parsed document: the emitted job list
of one discovery pass. -/
def collectAssetJobs (base : GoURL) (doc : HNode) : List DownloadJob :=
  (travNode base doc { seen := [], jobs := [] }).jobs

/-- Base URL used by concrete instances: `https://x/`. -/
def baseX : GoURL := ⟨"https".toList, "x".toList, "/".toList, []⟩

/-- C4 counterexample: the claim says every worker count from 1 to 100
inclusive is accepted, but `ScrapeCommand` rejects 100 (its guard is
`*concurrency < 1 || *concurrency > 50`). -/
theorem scrape_concurrency_100_rejected : concurrencyAccepted 100 = false := by
  decide

/-- C4 (amended): the scrape operation accepts exactly the worker counts
from 1 to 50 inclusive and rejects every count outside that range. -/
theorem scrape_concurrency_range :
    ∀ c : Int, concurrencyAccepted c = true ↔ (1 ≤ c ∧ c ≤ 50) := by
  intro c
  simp [concurrencyAccepted]


/-- Step lemma: a successful attempt finalizes immediately. -/
theorem retryLadder_ok {s : Nat → Bool} {rc : Nat} (h : s rc = true) :
    retryLadder s rc = (1, true) := by
  rw [retryLadder]; simp [h]

/-- Step lemma: a failed attempt below the retry ceiling re-queues with the
retry count incremented. -/
theorem retryLadder_again {s : Nat → Bool} {rc : Nat} (h : s rc = false) (h2 : rc < 3) :
    retryLadder s rc = ((retryLadder s (rc + 1)).1 + 1, (retryLadder s (rc + 1)).2) := by
  conv_lhs => rw [retryLadder]
  simp [h, h2]

/-- Step lemma: a failed attempt at the retry ceiling finalizes as failed. -/
theorem retryLadder_stop {s : Nat → Bool} {rc : Nat} (h : s rc = false) (h2 : ¬ rc < 3) :
    retryLadder s rc = (1, false) := by
  rw [retryLadder]; simp [h, h2]

/-- C1 counterexample: with every attempt failing, the worker retry ladder
of `assets/concurrent.go` (re-queue while `RetryCount < 3`, incrementing
`RetryCount`) performs 4 attempts in total, refuting the claimed ceiling of
3 attempts. -/
theorem retry_four_attempts :
    ¬ ((retryLadder (fun _ => false) 0).1 ≤ 3) := by
  have h3 : retryLadder (fun _ => false) 3 = (1, false) :=
    retryLadder_stop rfl (by omega)
  have h2 : retryLadder (fun _ => false) 2 = (2, false) := by
    rw [retryLadder_again rfl (by omega), h3]
  have h1 : retryLadder (fun _ => false) 1 = (3, false) := by
    rw [retryLadder_again rfl (by omega), h2]
  have h0 : retryLadder (fun _ => false) 0 = (4, false) := by
    rw [retryLadder_again rfl (by omega), h1]
  simp [h0]

/-- Helper: from retry count `rc` with `rc + d = 3`, at most `d + 1`
further attempts happen, and the finalized result is a failure exactly when
every attempt with retry count between `rc` and 3 fails. -/
theorem retryLadder_spec (s : Nat → Bool) :
    ∀ d rc, rc + d = 3 →
      (retryLadder s rc).1 ≤ d + 1 ∧
      ((retryLadder s rc).2 = false ↔ ∀ k, rc ≤ k → k ≤ 3 → s k = false) := by
  intro d
  induction d with
  | zero =>
    intro rc h
    have hrc : rc = 3 := by omega
    subst hrc
    cases hs : s 3 with
    | true =>
      rw [retryLadder_ok hs]
      refine ⟨le_refl 1, ?_⟩
      simp only [show (1, true).2 = true from rfl]
      constructor
      · intro h'; cases h'
      · intro h'
        have := h' 3 (le_refl 3) (le_refl 3)
        rw [hs] at this; cases this
    | false =>
      rw [retryLadder_stop hs (by omega)]
      refine ⟨le_refl 1, ?_⟩
      constructor
      · intro _ k h1 h2
        have hk : k = 3 := le_antisymm h2 h1
        rw [hk]; exact hs
      · intro _; rfl
  | succ d ih =>
    intro rc h
    have hlt : rc < 3 := by omega
    cases hs : s rc with
    | true =>
      rw [retryLadder_ok hs]
      refine ⟨by omega, ?_⟩
      constructor
      · intro h'; cases h'
      · intro h'
        have := h' rc (le_refl rc) (by omega)
        rw [hs] at this; cases this
    | false =>
      rw [retryLadder_again hs hlt]
      obtain ⟨ihb, ihe⟩ := ih (rc + 1) (by omega)
      refine ⟨by simpa using Nat.add_le_add_right ihb 1, ?_⟩
      constructor
      · intro h2 k h1k h2k
        by_cases hk : k = rc
        · rw [hk]; exact hs
        · exact (ihe.mp h2) k (by omega) h2k
      · intro h'
        exact ihe.mpr (fun k h1k h2k => h' k (by omega) h2k)

/-- C1 (amended): for every job, the fetch is attempted at most 4 times in
total — the initial attempt plus up to 3 retries, the retry counter being
capped at 3 by the `RetryCount < 3` guard — and in the sequential semantics
of the re-queue the job is finalized exactly once: as a failure precisely
when all four attempts fail. -/
theorem retry_ceiling_four (s : Nat → Bool) :
    (retryLadder s 0).1 ≤ 4 ∧
    ((retryLadder s 0).2 = false ↔ ∀ k, k ≤ 3 → s k = false) := by
  have := retryLadder_spec s 3 0 (by omega)
  refine ⟨by omega, ?_⟩
  rw [this.2]
  exact ⟨fun h k hk => h k (Nat.zero_le k) hk, fun h k _ hk => h k hk⟩

/-- Stylesheet job used in the pool race: `https://x/a.css`, retry count 0. -/
def jobA : DownloadJob := ⟨"https://x/a.css".toList, "css".toList, "a.css".toList, baseX, 0⟩

/-- The asynchronous re-queue of `jobA` after its first failed attempt. -/
def jobA1 : DownloadJob := { jobA with retryCount := 1 }

/-- Pool state in which `GetResults` has returned with no completion record
while the re-queued retry of `jobA` is still pending. -/
def poolBad : PoolState :=
  { queue := [], jobsClosed := true, workerJob := none, workerExited := true,
    pending := [jobA1], results := [], collected := true, panicked := false }

/-- C2: the claim is violated by the code. With one worker and a single job
whose first fetch fails, the schedule worker-takes-job, failed attempt
spawns the delayed re-queue goroutine, worker exits on the closed drained
channel, `GetResults` returns — is reachable: `collect()` has returned with
zero completion records while the retry is still pending; and the pending
retry's only further step is a send on the closed `jobs` channel, which
panics. -/
theorem collect_returns_with_dangling_retry :
    poolReach (fun _ => false) (initPool [jobA]) poolBad ∧
    poolBad.collected = true ∧ poolBad.results = [] ∧ poolBad.pending ≠ [] ∧
    PoolStep (fun _ => false) poolBad { poolBad with panicked := true } := by
  refine ⟨?_, rfl, rfl, by simp [poolBad], ?_⟩
  · apply Relation.ReflTransGen.head (PoolStep.take _ jobA [] rfl rfl rfl rfl)
    apply Relation.ReflTransGen.head (PoolStep.completeRetry _ jobA rfl rfl (by decide) rfl)
    apply Relation.ReflTransGen.head (PoolStep.exitWorker _ rfl rfl rfl rfl rfl)
    apply Relation.ReflTransGen.head (PoolStep.collectReturn _ rfl rfl rfl)
    exact Relation.ReflTransGen.refl
  · exact PoolStep.retryPanic _ jobA1 (List.Mem.head _) rfl rfl

/-- The scanner leaves an empty input empty, whatever the fuel. -/
theorem stripSMF_nil : ∀ f, stripSMF f [] = [] := by
  intro f; cases f <;> rfl

/-- The lazy block-end scan only shortens its input. -/
theorem scanToBlockEnd_length : ∀ {l r : List Char}, scanToBlockEnd l = some r → r.length ≤ l.length := by
  intro l
  induction l with
  | nil => intro r h; simp [scanToBlockEnd] at h
  | cons c cs ih =>
    intro r h
    simp only [scanToBlockEnd] at h
    split at h
    · injection h with h
      subst h
      have : cs.tail.length ≤ cs.length := by cases cs <;> simp
      simp; omega
    · split at h
      · cases h
      · have := ih h; simp; omega

/-- The marker matcher only shortens its input. -/
theorem afterMarker_length {l r : List Char} (h : afterMarker l = some r) : r.length ≤ l.length := by
  simp only [afterMarker] at h
  split at h
  · injection h with h
    subst h
    have h1 : (l.dropWhile goSpace).length ≤ l.length := (List.dropWhile_suffix _).length_le
    have h2 : ((l.dropWhile goSpace).drop smMarker.length).length =
        (l.dropWhile goSpace).length - smMarker.length := List.length_drop ..
    omega
  · cases h

/-- A block-comment match consumes at least one character. -/
theorem tryBlock_length {l r : List Char} (h : tryBlock l = some r) : r.length < l.length := by
  simp only [tryBlock] at h
  split at h
  · rename_i hp
    have h3 : 3 ≤ l.length := by
      have := (List.isPrefixOf_iff_prefix.mp hp).length_le
      simpa using this
    cases hm : afterMarker (l.drop 3) with
    | none => rw [hm] at h; cases h
    | some m =>
      rw [hm] at h
      have h1 := afterMarker_length hm
      have h2 := scanToBlockEnd_length h
      have h4 : (l.drop 3).length = l.length - 3 := List.length_drop ..
      omega
  · cases h

/-- A line-comment match consumes at least one character. -/
theorem tryLine_length {l r : List Char} (h : tryLine l = some r) : r.length < l.length := by
  simp only [tryLine] at h
  split at h
  · rename_i hp
    have h3 : 3 ≤ l.length := by
      have := (List.isPrefixOf_iff_prefix.mp hp).length_le
      simpa using this
    cases hm : afterMarker (l.drop 3) with
    | none => rw [hm] at h; cases h
    | some m =>
      rw [hm] at h
      injection h with h
      subst h
      have h1 := afterMarker_length hm
      have h2 : (m.dropWhile (fun c => c ≠ '\n')).length ≤ m.length :=
        (List.dropWhile_suffix _).length_le
      have h4 : (l.drop 3).length = l.length - 3 := List.length_drop ..
      omega
  · cases h

/-- Fuel invariance: any fuel at least the input length gives the same
scan result. -/
theorem stripSMF_fuel : ∀ (n : Nat) {f g : Nat} {l : List Char},
    l.length ≤ n → l.length ≤ f → l.length ≤ g → stripSMF f l = stripSMF g l := by
  intro n
  induction n with
  | zero =>
    intro f g l hn _ _
    have : l = [] := List.eq_nil_of_length_eq_zero (by omega)
    subst this
    simp [stripSMF_nil]
  | succ n ih =>
    intro f g l hn hf hg
    cases l with
    | nil => simp [stripSMF_nil]
    | cons c cs =>
      cases f with
      | zero => simp at hf
      | succ f' =>
        cases g with
        | zero => simp at hg
        | succ g' =>
          simp only [List.length_cons] at hn hf hg
          cases hb : tryBlock (c :: cs) with
          | some rest =>
            have hr := tryBlock_length hb
            simp only [List.length_cons] at hr
            simp only [stripSMF, hb]
            exact ih (by omega) (by omega) (by omega)
          | none =>
            cases hl : tryLine (c :: cs) with
            | some rest =>
              have hr := tryLine_length hl
              simp only [List.length_cons] at hr
              simp only [stripSMF, hb, hl]
              exact ih (by omega) (by omega) (by omega)
            | none =>
              simp only [stripSMF, hb, hl]
              rw [ih (f := f') (g := g') (l := cs) (by omega) (by omega) (by omega)]

/-- No source-map comment match starts inside `x` when `x` is followed by
`r`: decidable hypothesis used by the skip lemma. -/
def noSMStart (x r : List Char) : Bool :=
  x.tails.all (fun v => v.isEmpty || ((tryBlock (v ++ r)).isNone && (tryLine (v ++ r)).isNone))

/-- Unfolding of `noSMStart` over a cons. -/
theorem noSMStart_cons {c : Char} {x r : List Char} (h : noSMStart (c :: x) r = true) :
    tryBlock (c :: (x ++ r)) = none ∧ tryLine (c :: (x ++ r)) = none ∧ noSMStart x r = true := by
  unfold noSMStart at h
  rw [List.tails_cons] at h
  simp only [List.all_cons, Bool.and_eq_true, List.isEmpty_cons, Bool.false_or,
    Option.isNone_iff_eq_none, List.cons_append] at h
  exact ⟨h.1.1, h.1.2, h.2⟩

/-- Skip lemma: the scanner copies a match-free prefix verbatim. -/
theorem stripSMF_skip : ∀ (x : List Char) {r : List Char} {f : Nat},
    x.length + r.length ≤ f → noSMStart x r = true →
    stripSMF f (x ++ r) = x ++ stripSMF r.length r := by
  intro x
  induction x with
  | nil =>
    intro r f hf _
    simpa using stripSMF_fuel f (by simpa using hf) (by simpa using hf) (le_refl _)
  | cons c x' ih =>
    intro r f hf h
    obtain ⟨hb, hl, h'⟩ := noSMStart_cons h
    cases f with
    | zero => simp at hf
    | succ f' =>
      have step : stripSMF (f' + 1) ((c :: x') ++ r) = c :: stripSMF f' (x' ++ r) := by
        simp only [List.cons_append, stripSMF, List.append_eq, hb, hl]
      rw [step, ih (by simp at hf; omega) h']
      simp

/-- A match-free text is returned unchanged. -/
theorem stripSMF_clean {t : List Char} (h : noSMStart t [] = true) :
    stripSMF t.length t = t := by
  have := stripSMF_skip t (r := []) (f := t.length) (by simp) h
  simpa [stripSMF_nil] using this

/-- Stepping over a block-comment match under sufficient fuel. -/
theorem stripSMF_block_then {l rest : List Char} {f : Nat} (h : tryBlock l = some rest)
    (hf : l.length ≤ f) : stripSMF f l = stripSMF rest.length rest := by
  have hlen := tryBlock_length h
  cases l with
  | nil => simp [tryBlock] at h
  | cons c cs =>
    cases f with
    | zero => simp at hf
    | succ f' =>
      simp only [List.length_cons] at hlen hf
      simp only [stripSMF, h]
      exact stripSMF_fuel f' (by omega) (by omega) (le_refl _)

/-- Stepping over a line-comment match under sufficient fuel. -/
theorem stripSMF_line_then {l rest : List Char} {f : Nat} (hb : tryBlock l = none)
    (h : tryLine l = some rest) (hf : l.length ≤ f) :
    stripSMF f l = stripSMF rest.length rest := by
  have hlen := tryLine_length h
  cases l with
  | nil => simp [tryLine] at h
  | cons c cs =>
    cases f with
    | zero => simp at hf
    | succ f' =>
      simp only [List.length_cons] at hlen hf
      simp only [stripSMF, hb, h]
      exact stripSMF_fuel f' (by omega) (by omega) (le_refl _)

/-- The spec's block comment. -/
def smBlockC : List Char := "/*# sourceMappingURL=app.css.map */".toList

/-- The spec's line comment with a trailing query string. -/
def smLineC : List Char := "//# sourceMappingURL=app.css.map?v=1".toList

/-- The block alternative consumes exactly the block comment. -/
theorem tryBlock_smBlockC (t : List Char) : tryBlock (smBlockC ++ t) = some t := rfl

/-- The block alternative does not fire on the line comment. -/
theorem tryBlock_smLineC (t : List Char) : tryBlock (smLineC ++ t) = none := rfl

/-- The line alternative consumes exactly the line comment when the
remainder starts a new line (or the input ends). -/
theorem tryLine_smLineC (t : List Char) (h : t = [] ∨ t.head? = some '\n') :
    tryLine (smLineC ++ t) = some t := by
  rcases h with rfl | h
  · rfl
  · cases t with
    | nil => rfl
    | cons c t' =>
      simp only [List.head?_cons, Option.some.injEq] at h
      subst h
      rfl

/-- C8: applying `utils.RemoveSourceMapReferences` to content containing the
block comment `/*# sourceMappingURL=app.css.map */` (first conjunct) or the
line form with a trailing query string `//# sourceMappingURL=app.css.map?v=1`
(second conjunct; the line comment runs to the end of its line) removes
exactly that comment and leaves every other character of the content
unchanged, provided no other source-map comment starts in the surrounding
text (the decidable `noSMStart` hypotheses). -/
theorem sourcemap_strip_exact :
    (∀ x t : List Char, noSMStart x (smBlockC ++ t) = true → noSMStart t [] = true →
      RemoveSourceMapReferences (x ++ smBlockC ++ t) = x ++ t) ∧
    (∀ x t : List Char, noSMStart x (smLineC ++ t) = true → noSMStart t [] = true →
      (t = [] ∨ t.head? = some '\n') →
      RemoveSourceMapReferences (x ++ smLineC ++ t) = x ++ t) := by
  constructor
  · intro x t hx ht
    unfold RemoveSourceMapReferences
    rw [List.append_assoc]
    rw [stripSMF_skip x (by simp) hx]
    rw [stripSMF_block_then (tryBlock_smBlockC t) (le_refl _)]
    rw [stripSMF_clean ht]
  · intro x t hx ht hnl
    unfold RemoveSourceMapReferences
    rw [List.append_assoc]
    rw [stripSMF_skip x (by simp) hx]
    rw [stripSMF_line_then (tryBlock_smLineC t) (tryLine_smLineC t hnl) (le_refl _)]
    rw [stripSMF_clean ht]

/-- Witness for C8 at concrete inputs: both comment forms are removed from
concrete surrounding text. -/
theorem sourcemap_strip_exact_witness :
    RemoveSourceMapReferences ("body c;\n".toList ++ smBlockC ++ "\np a;\n".toList) =
      "body c;\n".toList ++ "\np a;\n".toList ∧
    RemoveSourceMapReferences ("q;\n".toList ++ smLineC ++ "\nr;".toList) =
      "q;\n".toList ++ "\nr;".toList := by
  constructor
  · exact sourcemap_strip_exact.1 _ _ (by decide) (by decide)
  · exact sourcemap_strip_exact.2 _ _ (by decide) (by decide) (by decide)

/-- `replaceAllF` leaves an empty input empty, whatever the fuel. -/
theorem replaceAllF_nil : ∀ (new old : List Char) f, replaceAllF new old f [] = [] := by
  intro new old f; cases f <;> rfl

/-- Fuel invariance of `replaceAllF` for non-empty patterns. -/
theorem replaceAllF_fuel {new old : List Char} (ho : old ≠ []) :
    ∀ (n : Nat) {f g : Nat} {l : List Char},
    l.length ≤ n → l.length ≤ f → l.length ≤ g →
    replaceAllF new old f l = replaceAllF new old g l := by
  intro n
  induction n with
  | zero =>
    intro f g l hn _ _
    have : l = [] := List.eq_nil_of_length_eq_zero (by omega)
    subst this
    simp [replaceAllF_nil]
  | succ n ih =>
    intro f g l hn hf hg
    cases l with
    | nil => simp [replaceAllF_nil]
    | cons c cs =>
      cases f with
      | zero => simp at hf
      | succ f' =>
        cases g with
        | zero => simp at hg
        | succ g' =>
          simp only [List.length_cons] at hn hf hg
          have holen : 1 ≤ old.length := by
            cases old with
            | nil => exact absurd rfl ho
            | cons _ _ => simp
          by_cases hp : old.isPrefixOf (c :: cs) = true
          · simp only [replaceAllF, hp, if_true]
            have hd : (List.drop old.length (c :: cs)).length = cs.length + 1 - old.length :=
              List.length_drop ..
            rw [ih (f := f') (g := g') (l := List.drop old.length (c :: cs))
              (by omega) (by omega) (by omega)]
          · simp only [replaceAllF, hp]
            simp only [Bool.false_eq_true, if_false]
            rw [ih (f := f') (g := g') (l := cs) (by omega) (by omega) (by omega)]

/-- No occurrence of `old` starts inside `x` when `x` is followed by `r`:
decidable hypothesis used by the replacement skip lemma. -/
def cleanPre (x old r : List Char) : Bool :=
  x.tails.all (fun v => v.isEmpty || !(old.isPrefixOf (v ++ r)))

/-- Unfolding of `cleanPre` over a cons. -/
theorem cleanPre_cons {c : Char} {x old r : List Char} (h : cleanPre (c :: x) old r = true) :
    old.isPrefixOf (c :: (x ++ r)) = false ∧ cleanPre x old r = true := by
  unfold cleanPre at h
  rw [List.tails_cons] at h
  simp only [List.all_cons, Bool.and_eq_true, List.isEmpty_cons, Bool.false_or,
    Bool.not_eq_true', List.cons_append] at h
  exact ⟨h.1, h.2⟩

/-- Skip lemma: `strings.ReplaceAll` copies an occurrence-free prefix
verbatim. -/
theorem replaceAllF_skip {new old : List Char} (ho : old ≠ []) :
    ∀ (x : List Char) {r : List Char} {f : Nat},
    x.length + r.length ≤ f → cleanPre x old r = true →
    replaceAllF new old f (x ++ r) = x ++ replaceAllF new old r.length r := by
  intro x
  induction x with
  | nil =>
    intro r f hf _
    simpa using replaceAllF_fuel ho f (by simpa using hf) (by simpa using hf) (le_refl _)
  | cons c x' ih =>
    intro r f hf h
    obtain ⟨hp, h'⟩ := cleanPre_cons h
    cases f with
    | zero => simp at hf
    | succ f' =>
      have step : replaceAllF new old (f' + 1) ((c :: x') ++ r) =
          c :: replaceAllF new old f' (x' ++ r) := by
        simp only [List.cons_append, replaceAllF, List.append_eq, hp]
        simp
      rw [step, ih (by simp at hf; omega) h']
      simp

/-- An occurrence-free text is returned unchanged. -/
theorem replaceAllF_clean {new old : List Char} (ho : old ≠ []) {t : List Char}
    (h : cleanPre t old [] = true) : replaceAllF new old t.length t = t := by
  have := @replaceAllF_skip new old ho t [] t.length (by simp) h
  simpa [replaceAllF_nil] using this

/-- Stepping over an occurrence of the pattern under sufficient fuel. -/
theorem replaceAllF_match {new old : List Char} (ho : old ≠ []) {rest : List Char} {f : Nat}
    (hf : (old ++ rest).length ≤ f) :
    replaceAllF new old f (old ++ rest) = new ++ replaceAllF new old rest.length rest := by
  cases old with
  | nil => exact absurd rfl ho
  | cons o os =>
    cases f with
    | zero =>
      exfalso
      simp only [List.length_append, List.length_cons] at hf
      omega
    | succ f' =>
      have hp : (o :: os).isPrefixOf ((o :: os) ++ rest) = true :=
        List.isPrefixOf_iff_prefix.mpr (List.prefix_append _ _)
      have hd : List.drop (o :: os).length ((o :: os) ++ rest) = rest := List.drop_left ..
      simp only [List.cons_append] at hp hd ⊢
      simp only [replaceAllF, hp, if_true, hd]
      congr 1
      have hflen : rest.length ≤ f' := by
        simp only [List.length_cons, List.length_append] at hf
        omega
      exact replaceAllF_fuel (List.cons_ne_nil o os) f' hflen hflen (le_refl _)

/-- C5: the Reference Rewriter (`updateHTMLWithLocalPaths`). First conjunct:
origin strings with no successful Result never reach the AssetMap
(`GetResults` stores only successes), so with no entry for them the document
is returned unchanged. Second conjunct: for an AssetMap entry `(o, p)`,
every occurrence of the origin reference `o` across the whole document text
is replaced identically by the local path `p` with the `output/` storage
root stripped, and every other character is preserved (the `cleanPre`
hypotheses say no further occurrence of `o` straddles the shown
decomposition). -/
theorem rewriter_replaces_all :
    (∀ doc : List Char, updateHTMLWithLocalPaths doc [] = doc) ∧
    (∀ x y z o p : List Char, o ≠ [] →
      cleanPre x o (o ++ (y ++ (o ++ z))) = true →
      cleanPre y o (o ++ z) = true →
      cleanPre z o [] = true →
      updateHTMLWithLocalPaths (x ++ o ++ y ++ o ++ z) [(o, p)] =
        x ++ stripStorageRoot p ++ y ++ stripStorageRoot p ++ z) := by
  constructor
  · intro doc; rfl
  · intro x y z o p ho hx hy hz
    have e1 : updateHTMLWithLocalPaths (x ++ o ++ y ++ o ++ z) [(o, p)] =
        replaceAllF (stripStorageRoot p) o (x ++ o ++ y ++ o ++ z).length
          (x ++ o ++ y ++ o ++ z) := rfl
    rw [e1]
    rw [show x ++ o ++ y ++ o ++ z = x ++ (o ++ (y ++ (o ++ z))) by
      simp [List.append_assoc]]
    rw [replaceAllF_skip ho x (by simp) hx]
    rw [replaceAllF_match ho (le_refl _)]
    rw [replaceAllF_skip ho y (by simp) hy]
    rw [replaceAllF_match ho (le_refl _)]
    rw [replaceAllF_clean ho hz]
    simp [List.append_assoc]

/-- Witness for C5 at concrete inputs: an origin URL occurring twice is
replaced at both points with the storage root stripped, and a document with
an empty map is untouched. -/
theorem rewriter_replaces_all_witness :
    updateHTMLWithLocalPaths
        ("<img src=\"".toList ++ "https://x/i.png".toList ++ "\"><img src=\"".toList ++
          "https://x/i.png".toList ++ "\">".toList)
        [("https://x/i.png".toList, "output/assets/images/i.png".toList)] =
      "<img src=\"".toList ++ "assets/images/i.png".toList ++ "\"><img src=\"".toList ++
        "assets/images/i.png".toList ++ "\">".toList ∧
    updateHTMLWithLocalPaths ("keep".toList) [] = "keep".toList := by
  constructor
  · have h := rewriter_replaces_all.2 ("<img src=\"".toList) ("\"><img src=\"".toList)
      ("\">".toList) ("https://x/i.png".toList) ("output/assets/images/i.png".toList)
      (by decide) (by decide) (by decide) (by decide)
    have hr : stripStorageRoot ("output/assets/images/i.png".toList) =
        "assets/images/i.png".toList := rfl
    rw [hr] at h
    exact h
  · exact rewriter_replaces_all.1 _

/-- Rendering lemma: a URL with a scheme and a host renders as
`scheme://host` followed by the rest. -/
theorem urlString_pre {v : GoURL} (hs : v.scheme ≠ []) (hh : v.host ≠ []) :
    ∃ rest, urlString v = v.scheme ++ ':' :: '/' :: '/' :: (v.host ++ rest) := by
  refine ⟨(if v.path ≠ [] ∧ v.path.head? ≠ some '/' ∧ v.host ≠ [] then '/' :: v.path
      else v.path) ++ (if v.query ≠ [] then '?' :: v.query else []), ?_⟩
  simp only [urlString, hs, hh, ne_eq, not_false_eq_true, if_true, reduceIte]
  simp [List.append_assoc]

/-- C9: `utils.ResolveURL` fails closed and handles protocol-relative
references. First conjunct: for every base and every reference that fails
to parse, the original reference string is returned unchanged. Second
conjunct: every well-formed protocol-relative reference (parses with an
empty scheme and a non-empty host) resolves to an absolute URL carrying the
base's scheme followed by `//` and the reference's host. -/
theorem resolver_fail_closed :
    (∀ (base : GoURL) (ref : List Char), parseURL ref = none → ResolveURL base ref = ref) ∧
    (∀ (base : GoURL) (ref : List Char) (u : GoURL), base.scheme ≠ [] →
      parseURL ref = some u → u.scheme = [] → u.host ≠ [] →
      hasPre (ResolveURL base ref) (base.scheme ++ ':' :: '/' :: '/' :: u.host) = true) := by
  constructor
  · intro base ref h
    simp [ResolveURL, h]
  · intro base ref u hb hparse hs hh
    simp only [ResolveURL, hparse]
    have hres : resolveReference base u =
        { scheme := base.scheme, host := u.host, path := resolvePath u.path [],
          query := u.query } := by
      simp [resolveReference, hs, hh]
    rw [hres]
    obtain ⟨rest, hrest⟩ :=
      urlString_pre (v := ⟨base.scheme, u.host, resolvePath u.path [], u.query⟩) hb hh
    rw [hrest]
    unfold hasPre
    apply List.isPrefixOf_iff_prefix.mpr
    refine ⟨rest, ?_⟩
    simp [List.append_assoc]

/-- Witness for C9 at concrete inputs: the malformed reference `:bad`
(missing protocol scheme) is returned unchanged, and the protocol-relative
`//cdn.x.io/a/b.css` resolves carrying the base's `https` scheme. -/
theorem resolver_fail_closed_witness :
    ResolveURL baseX (":bad".toList) = ":bad".toList ∧
    hasPre (ResolveURL baseX ("//cdn.x.io/a/b.css".toList))
      (baseX.scheme ++ ':' :: '/' :: '/' :: "cdn.x.io".toList) = true := by
  constructor
  · exact resolver_fail_closed.1 baseX _ (by decide)
  · exact resolver_fail_closed.2 baseX ("//cdn.x.io/a/b.css".toList)
      ⟨[], "cdn.x.io".toList, "/a/b.css".toList, []⟩
      (by decide) (by decide) rfl (by decide)

/-- A successful pooled resource download returns a path under the
`output/assets/` storage root. -/
theorem cdDownloadResource_ok_path {fetch : Fetch} {u ext : List Char} {b : GoURL}
    {p : List Char} (h : (cdDownloadResource fetch u ext b).1 = .ok p) :
    ∃ fn, p = "output/assets/".toList ++ fn := by
  unfold cdDownloadResource at h
  cases hf : fetch u with
  | none => rw [hf] at h; cases h
  | some resp =>
    rw [hf] at h
    by_cases hst : resp.status = 200
    · simp only [hst, ne_eq, not_true_eq_false, if_false, reduceIte] at h
      cases hp : parseURL u with
      | none => rw [hp] at h; cases h
      | some pu =>
        rw [hp] at h
        by_cases hcss : ext = "css".toList
        · simp only [hcss, if_true, reduceIte] at h
          injection h with h
          exact ⟨_, h.symm⟩
        · by_cases hjs : ext = "js".toList
          · simp only [hcss, hjs, if_false, if_true, reduceIte] at h
            injection h with h
            exact ⟨_, h.symm⟩
          · simp only [hcss, hjs, if_false, reduceIte] at h
            injection h with h
            exact ⟨_, h.symm⟩
    · simp [hst] at h

/-- A successful image download returns a path under `output/assets/`. -/
theorem downloadImage_ok_path {fetch : Fetch} {u : List Char} {p : List Char}
    (h : (downloadImage fetch u).1 = .ok p) :
    ∃ fn, p = "output/assets/".toList ++ fn := by
  unfold downloadImage at h
  cases hf : fetch u with
  | none => rw [hf] at h; cases h
  | some resp =>
    rw [hf] at h
    by_cases hst : resp.status = 200
    · simp only [hst, ne_eq, not_true_eq_false, if_false, reduceIte] at h
      cases hp : parseURL u with
      | none => rw [hp] at h; cases h
      | some pu =>
        rw [hp] at h
        injection h with h
        rw [show ("output/assets/images/".toList : List Char) =
          "output/assets/".toList ++ "images/".toList from rfl, List.append_assoc] at h
        exact ⟨_, h.symm⟩
    · simp [hst] at h

/-- A successful font download returns a path under `output/assets/`. -/
theorem downloadFont_ok_path {fetch : Fetch} {u : List Char} {p : List Char}
    (h : (downloadFont fetch u).1 = .ok p) :
    ∃ fn, p = "output/assets/".toList ++ fn := by
  unfold downloadFont at h
  cases hf : fetch u with
  | none => rw [hf] at h; cases h
  | some resp =>
    rw [hf] at h
    by_cases hst : resp.status = 200
    · simp only [hst, ne_eq, not_true_eq_false, if_false, reduceIte] at h
      cases hp : parseURL u with
      | none => rw [hp] at h; cases h
      | some pu =>
        rw [hp] at h
        injection h with h
        rw [show ("output/assets/fonts/".toList : List Char) =
          "output/assets/".toList ++ "fonts/".toList from rfl, List.append_assoc] at h
        exact ⟨_, h.symm⟩
    · simp [hst] at h

/-- A successful `processJob` result carries a local path under the
`output/assets/` storage root. -/
theorem processJob_success_path {fetch : Fetch} {job : DownloadJob}
    (hs : (processJob fetch job).1.success = true) :
    ∃ fn, (processJob fetch job).1.localPath = "output/assets/".toList ++ fn := by
  unfold processJob at hs ⊢
  by_cases h1 : job.jobType = "css".toList ∨ job.jobType = "js".toList ∨
      job.jobType = "json".toList
  · simp only [h1, if_true, reduceIte] at hs ⊢
    rcases ho : cdDownloadResource fetch job.url job.jobType job.baseURL with ⟨o, w, f⟩
    rw [ho] at hs
    cases o with
    | error e => exact (Bool.false_ne_true hs).elim
    | ok p => exact cdDownloadResource_ok_path (p := p) (by rw [ho])
  · simp only [h1, if_false, reduceIte] at hs ⊢
    by_cases h2 : job.jobType = "image".toList
    · simp only [h2, if_true, reduceIte] at hs ⊢
      rcases ho : downloadImage fetch job.url with ⟨o, w, f⟩
      rw [ho] at hs
      cases o with
      | error e => exact (Bool.false_ne_true hs).elim
      | ok p => exact downloadImage_ok_path (p := p) (by rw [ho])
    · simp only [h2, if_false, reduceIte] at hs ⊢
      by_cases h3 : job.jobType = "font".toList
      · simp only [h3, if_true, reduceIte] at hs ⊢
        rcases ho : downloadFont fetch job.url with ⟨o, w, f⟩
        rw [ho] at hs
        cases o with
        | error e => exact (Bool.false_ne_true hs).elim
        | ok p => exact downloadFont_ok_path (p := p) (by rw [ho])
      · simp only [h3, if_false, reduceIte] at hs
        simp at hs

/-- Membership in an upsert comes from the old map or is the new pair. -/
theorem upsert_mem {m : List (List Char × List Char)} {k v : List Char}
    {kv : List Char × List Char} (h : kv ∈ upsert m k v) :
    kv ∈ m ∨ kv = (k, v) := by
  unfold upsert at h
  split at h
  · rcases List.mem_map.mp h with ⟨p, hp, he⟩
    by_cases hk : p.1 = k
    · right; rw [← he]; simp [hk]
    · left; rw [← he]; simpa [hk] using hp
  · rcases List.mem_append.mp h with h' | h'
    · exact Or.inl h'
    · right; simpa using h'

/-- Every value of the map built by `GetResults` comes from a successful
result's local path. -/
theorem GetResults_values {P : List Char → Prop} :
    ∀ (results : List DownloadResult) (m : List (List Char × List Char)),
    (∀ kv ∈ m, P kv.2) →
    (∀ r ∈ results, r.success = true → P r.localPath) →
    ∀ kv ∈ results.foldl
      (fun m r => if r.success then upsert m r.job.originalPath r.localPath else m) m,
      P kv.2 := by
  intro results
  induction results with
  | nil => intro m hm _ kv hkv; exact hm kv hkv
  | cons r rs ih =>
    intro m hm hr kv hkv
    simp only [List.foldl_cons] at hkv
    by_cases hs : r.success = true
    · refine ih (upsert m r.job.originalPath r.localPath) ?_
        (fun r' h' hs' => hr r' (List.mem_cons_of_mem _ h') hs') kv ?_
      · intro kv' hkv'
        rcases upsert_mem hkv' with h' | h'
        · exact hm kv' h'
        · rw [h']; exact hr r (List.mem_cons_self _ _) hs
      · simpa [hs] using hkv
    · refine ih _ hm (fun r' h' hs' => hr r' (List.mem_cons_of_mem _ h') hs') kv ?_
      simpa [hs] using hkv

/-- C10: running the pool over any job list and any network oracle, every
entry of the resulting AssetMap was stored by a successful result whose
local path sits under the `output/` storage root; in particular every
AssetMap value is non-empty, and failed results never add a key
(`GetResults` only stores on `result.Success`). -/
theorem assetmap_values_nonempty :
    ∀ (fetch : Fetch) (jobs : List DownloadJob) (kv : List Char × List Char),
      kv ∈ GetResults (jobs.map (fun j => (processJob fetch j).1)) →
      kv.2 ≠ [] ∧ hasPre kv.2 ("output/".toList) = true := by
  intro fetch jobs kv hkv
  have hP := GetResults_values (P := fun v => ∃ fn, v = "output/assets/".toList ++ fn)
    (jobs.map (fun j => (processJob fetch j).1)) [] (by simp)
    (by
      intro r hr hs
      rcases List.mem_map.mp hr with ⟨j, _, he⟩
      rw [← he] at hs ⊢
      exact processJob_success_path hs)
    kv hkv
  rcases hP with ⟨fn, hfn⟩
  constructor
  · rw [hfn]; simp
  · rw [hfn]
    unfold hasPre
    apply List.isPrefixOf_iff_prefix.mpr
    exact ⟨"assets/".toList ++ fn, by simp⟩

/-- Oracle answering every fetch with status 200 and body `d`. -/
def fetchOK : Fetch := fun _ => some ⟨200, [], "d".toList⟩

/-- Font job used by the C10 witness. -/
def jobF : DownloadJob := ⟨"https://x/f.woff2".toList, "font".toList, "f1".toList, baseX, 0⟩

/-- Witness for C10 at a concrete run: one successful font job yields an
AssetMap whose single value is a non-empty `output/`-rooted path. -/
theorem assetmap_values_nonempty_witness :
    ("f1".toList, "output/assets/fonts/f.woff2".toList) ∈
        GetResults ([jobF].map (fun j => (processJob fetchOK j).1)) ∧
    ("output/assets/fonts/f.woff2".toList ≠ ([] : List Char) ∧
      hasPre ("output/assets/fonts/f.woff2".toList) ("output/".toList) = true) := by
  refine ⟨by decide, ?_⟩
  exact assetmap_values_nonempty fetchOK [jobF]
    ("f1".toList, "output/assets/fonts/f.woff2".toList) (by decide)

/-- CSS fragment with one font reference, used by the C6 instances. -/
def cssFontRef : List Char := "src: url(https://x/a.woff2);".toList

/-- Oracle answering every fetch with HTTP status 404 and body `NF`. -/
def fetch404 : Fetch := fun _ => some ⟨404, [], "NF".toList⟩

/-- C6 counterexample: the font fetch performed while transforming a CSS
body gets a 404 response, yet `LocalizeFontURLs` persists the body under
the fonts directory and rewrites the reference — the non-2xx status is not
treated as a failure, and no retry/dedup machinery is involved (one direct
fetch, one write). -/
theorem font_fetch_ignores_status_counterexample :
    fetch404 ("https://x/a.woff2".toList) = some ⟨404, [], "NF".toList⟩ ∧
    LocalizeFontURLs fetch404 cssFontRef baseX =
      ("src: url(fonts/a.woff2);".toList,
       [("output/assets/fonts/a.woff2".toList, "NF".toList)],
       ["https://x/a.woff2".toList]) := by
  exact ⟨rfl, rfl⟩

/-- C6 (amended): fetches made by the job download functions treat any
status other than 200 as a failure and persist nothing (first conjunct, for
`DownloadResource`); but the font fetches inside `LocalizeFontURLs` never
inspect the HTTP status — whatever the status, the response body is
persisted under the fonts directory (second conjunct) — and they bypass the
pool's retry/dedup machinery entirely. -/
theorem font_fetch_ignores_status :
    (∀ (fetch : Fetch) (u ext : List Char) (b : GoURL) (resp : Resp),
      fetch u = some resp → resp.status ≠ 200 →
      DownloadResource fetch u ext b = (.error ("bad status".toList), [], [u])) ∧
    (∀ (st : Nat) (body : List Char),
      (LocalizeFontURLs (fun _ => some ⟨st, [], body⟩) cssFontRef baseX).2.1 =
        [("output/assets/fonts/a.woff2".toList, body)]) := by
  constructor
  · intro fetch u ext b resp h hst
    unfold DownloadResource
    rw [h]
    simp [hst]
  · intro st body
    rfl

/-- Witness for C6 (amended) at concrete inputs: a 404 resource download
fails with nothing written, while the 404 font fetch still persists. -/
theorem font_fetch_ignores_status_witness :
    DownloadResource fetch404 ("https://x/s.css".toList) ("css".toList) baseX =
      (.error ("bad status".toList), [], ["https://x/s.css".toList]) ∧
    (LocalizeFontURLs (fun _ => some ⟨404, [], "NF".toList⟩) cssFontRef baseX).2.1 =
      [("output/assets/fonts/a.woff2".toList, "NF".toList)] := by
  constructor
  · exact font_fetch_ignores_status.1 fetch404 _ _ baseX ⟨404, [], "NF".toList⟩ rfl (by decide)
  · exact font_fetch_ignores_status.2 404 ("NF".toList)

/-- The spec's JS body: a JSON-embedded templated `css_file` URL together
with the `user_banner_id` and `consenttype` pairs. -/
def jsBody : List Char :=
  "\"css_file\":\"https:\\/\\/x\\/banner-{banner_id}-{type}.css\",\"user_banner_id\":\"7\",\"consenttype\":\"optin\"".toList

/-- The fully substituted template URL. -/
def bannerURL : List Char := "https://x/banner-7-optin.css".toList

/-- C7 counterexample: on the spec's input the transformer fetches the
resolved `banner-7-optin.css` twice — once in the Complianz special-case
block and once in the general template-match loop — refuting "fetched
exactly once". -/
theorem complianz_double_fetch :
    ((LocalizeJavaScriptURLs fetchOK jsBody baseX).2.2.filter
        (fun u => u = bannerURL)).length = 2 ∧
    ¬ (((LocalizeJavaScriptURLs fetchOK jsBody baseX).2.2.filter
        (fun u => u = bannerURL)).length = 1) := by
  exact ⟨rfl, by decide⟩

/-- C7 (amended): on the spec's input every placeholder is substituted via
the `user_` prefix variant and the `type`→`consenttype` alias, yielding
`https://x/banner-7-optin.css`; the quoted template literal is rewritten to
the local path; but the resolved resource is fetched exactly twice (the
Complianz special case and the stale general template loop each download
it). -/
theorem complianz_template_resolution :
    LocalizeJavaScriptURLs fetchOK jsBody baseX =
      ("\"css_file\":\"assets/banner-7-optin.css\",\"user_banner_id\":\"7\",\"consenttype\":\"optin\"".toList,
       [("output/assets/banner-7-optin.css".toList, "d".toList),
        ("output/assets/banner-7-optin.css".toList, "d".toList)],
       [bannerURL, bannerURL]) := by
  rfl

/-- Scanner invariant: every emitted job's canonical URL is in the dedup
set, and the emitted URLs are pairwise distinct. -/
def scanInv (st : ScanSt) : Prop :=
  (∀ u ∈ st.jobs.map (fun j => j.url), u ∈ st.seen) ∧
  (st.jobs.map (fun j => j.url)).Nodup

/-- The guarded emission preserves the invariant. -/
theorem addIfNew_inv {st : ScanSt} {u : List Char} {job : DownloadJob}
    (hj : job.url = u) (h : scanInv st) : scanInv (addIfNew st u job) := by
  unfold addIfNew
  by_cases hs : st.seen.any (fun x => x = u) = true
  · simpa [hs] using h
  · have hu : u ∉ st.seen := by
      intro hmem
      exact hs (List.any_eq_true.mpr ⟨u, hmem, by simp⟩)
    simp only [hs, if_false, reduceIte, Bool.false_eq_true]
    constructor
    · intro v hv
      simp only [List.map_append, List.map_cons, List.map_nil, List.mem_append,
        List.mem_singleton] at hv
      rcases hv with hv | hv
      · exact List.mem_cons_of_mem _ (h.1 v hv)
      · rw [hv, hj]; exact List.mem_cons_self _ _
    · simp only [List.map_append, List.map_cons, List.map_nil]
      rw [List.nodup_append]
      refine ⟨h.2, List.nodup_singleton _, ?_⟩
      intro v hv hv'
      simp only [List.mem_singleton] at hv'
      rw [hv', hj] at hv
      exact hu (h.1 u hv)

/-- A guarded emission under a condition preserves the invariant. -/
theorem ite_addIfNew_inv {c : Prop} [Decidable c] {st : ScanSt} {u : List Char}
    {j : DownloadJob} (hj : j.url = u) (h : scanInv st) :
    scanInv (if c then addIfNew st u j else st) := by
  split
  · exact addIfNew_inv hj h
  · exact h

/-- A fold whose step preserves the invariant preserves it. -/
theorem foldl_scanInv {α : Type} {f : ScanSt → α → ScanSt}
    (hf : ∀ st a, scanInv st → scanInv (f st a)) :
    ∀ (l : List α) (st : ScanSt), scanInv st → scanInv (l.foldl f st) := by
  intro l
  induction l with
  | nil => intro st h; exact h
  | cons a l ih => intro st h; exact ih _ (hf st a h)

/-- `<link>` handling preserves the invariant. -/
theorem linkHandler_inv (base : GoURL) (attrs : List (List Char × List Char))
    {st : ScanSt} (h : scanInv st) : scanInv (linkHandler base attrs st) := by
  unfold linkHandler
  exact ite_addIfNew_inv rfl (ite_addIfNew_inv rfl (ite_addIfNew_inv rfl h))

/-- `<script>` handling preserves the invariant. -/
theorem scriptHandler_inv (base : GoURL) (attrs : List (List Char × List Char))
    {st : ScanSt} (h : scanInv st) : scanInv (scriptHandler base attrs st) := by
  unfold scriptHandler
  exact ite_addIfNew_inv rfl h

/-- Srcset expansion preserves the invariant. -/
theorem collectSrcsetJobs_inv (base : GoURL) (s : List Char) {st : ScanSt}
    (h : scanInv st) : scanInv (collectSrcsetJobsWithDupeCheck base s st) := by
  unfold collectSrcsetJobsWithDupeCheck
  refine foldl_scanInv ?_ _ _ h
  intro st e h'
  dsimp only
  split
  · exact h'
  · split
    · exact h'
    · exact ite_addIfNew_inv rfl h'

/-- `<img>` attribute handling preserves the invariant. -/
theorem imgAttrStep_inv (base : GoURL) {st : ScanSt} (attr : List Char × List Char)
    (h : scanInv st) : scanInv (imgAttrStep base st attr) := by
  unfold imgAttrStep
  by_cases hss : attr.1 = "srcset".toList
  · simp only [hss, if_true, reduceIte]
    exact collectSrcsetJobs_inv base _ (ite_addIfNew_inv rfl h)
  · simp only [hss, if_false, reduceIte]
    exact ite_addIfNew_inv rfl h

/-- `<meta>` handling preserves the invariant. -/
theorem metaHandler_inv (base : GoURL) (attrs : List (List Char × List Char))
    {st : ScanSt} (h : scanInv st) : scanInv (metaHandler base attrs st) := by
  unfold metaHandler
  exact ite_addIfNew_inv rfl h

/-- Background-image expansion preserves the invariant. -/
theorem collectStyleBackgroundJobs_inv (base : GoURL) (s : List Char) {st : ScanSt}
    (h : scanInv st) : scanInv (collectStyleBackgroundJobsWithDupeCheck base s st) := by
  unfold collectStyleBackgroundJobsWithDupeCheck
  refine foldl_scanInv ?_ _ _ h
  intro st e h'
  exact ite_addIfNew_inv rfl h'

/-- Style-attribute handling preserves the invariant. -/
theorem styleAttrStep_inv (base : GoURL) {st : ScanSt} (attr : List Char × List Char)
    (h : scanInv st) : scanInv (styleAttrStep base st attr) := by
  unfold styleAttrStep
  split
  · exact collectStyleBackgroundJobs_inv base _ h
  · exact h

mutual
/-- Node traversal preserves the invariant. -/
theorem travNode_inv (base : GoURL) : ∀ (n : HNode) (st : ScanSt),
    scanInv st → scanInv (travNode base n st)
  | .text _, _, h => h
  | .elem tag attrs children, st, h => by
    unfold travNode
    apply travList_inv base children
    apply foldl_scanInv (fun st a h' => styleAttrStep_inv base a h')
    split
    · apply metaHandler_inv
      split
      · apply foldl_scanInv (fun st a h' => imgAttrStep_inv base a h')
        split
        · apply scriptHandler_inv
          split
          · exact linkHandler_inv base attrs h
          · exact h
        · split
          · exact linkHandler_inv base attrs h
          · exact h
      · split
        · apply scriptHandler_inv
          split
          · exact linkHandler_inv base attrs h
          · exact h
        · split
          · exact linkHandler_inv base attrs h
          · exact h
    · split
      · apply foldl_scanInv (fun st a h' => imgAttrStep_inv base a h')
        split
        · apply scriptHandler_inv
          split
          · exact linkHandler_inv base attrs h
          · exact h
        · split
          · exact linkHandler_inv base attrs h
          · exact h
      · split
        · apply scriptHandler_inv
          split
          · exact linkHandler_inv base attrs h
          · exact h
        · split
          · exact linkHandler_inv base attrs h
          · exact h

/-- List traversal preserves the invariant. -/
theorem travList_inv (base : GoURL) : ∀ (ns : List HNode) (st : ScanSt),
    scanInv st → scanInv (travList base ns st)
  | [], _, h => h
  | n :: ns, st, h => travList_inv base ns _ (travNode_inv base n st h)
end

/-- C3: within one discovery pass (`collectAssetJobs`), the canonical URLs
of the emitted jobs are pairwise distinct — at most one Job per resolved
URL, even when several distinct origin reference strings resolve to it:
the shared `urlSeen` set guards every emission. -/
theorem discovery_pass_dedup (base : GoURL) (doc : HNode) :
    ((collectAssetJobs base doc).map (fun j => j.url)).Nodup := by
  have h := travNode_inv base doc { seen := [], jobs := [] } (by constructor <;> simp)
  exact h.2
